import Mathlib

/-!
Verification of the LiteCoreDB REPL core: the command router (matching,
help, suggestion engine) and the database file header codec.

Strings are modelled as lists of characters (`Str`).  JavaScript string
primitives used by the source (trim, split on whitespace runs, case
folding for the regex `i` flag and `toLowerCase`) are embedded as
recursive functions; case folding is modelled on the ASCII range, which
covers every registered command name and the characters the router
compares.  Byte buffers are lists of naturals (`< 256` where written by
the code).
-/

set_option maxHeartbeats 1000000

namespace LiteCore

/-- Strings as character lists. -/
abbrev Str := List Char

/-- Coerce a literal to the character-list representation. -/
def str (s : String) : Str := s.data

/-- ASCII case folding: the effect of `toLowerCase` / the regex `i` flag
on the ASCII range. -/
def lowerChar (c : Char) : Char :=
  if h : 65 ≤ c.toNat ∧ c.toNat ≤ 90 then
    Char.ofNatAux (c.toNat + 32) (Or.inl (by omega))
  else c

/-- Lowercase an entire string. -/
def lowerStr (s : Str) : Str := s.map lowerChar

/-- JavaScript `\s` (and `trim`) whitespace set. -/
def isWs (c : Char) : Bool :=
  decide (c.toNat = 32 ∨ c.toNat = 9 ∨ c.toNat = 10 ∨ c.toNat = 11 ∨ c.toNat = 12 ∨
    c.toNat = 13 ∨ c.toNat = 160 ∨ c.toNat = 5760 ∨
    (8192 ≤ c.toNat ∧ c.toNat ≤ 8202) ∨ c.toNat = 8232 ∨ c.toNat = 8233 ∨
    c.toNat = 8239 ∨ c.toNat = 8287 ∨ c.toNat = 12288 ∨ c.toNat = 65279)

/-- `String.prototype.trim`. -/
def trimJS (s : Str) : Str :=
  ((s.dropWhile (fun c => isWs c)).reverse.dropWhile (fun c => isWs c)).reverse

/-- Accumulator worker for `splitWs`. -/
def splitWsAux : Str → Str → List Str
  | [], acc => if acc = [] then [] else [acc.reverse]
  | c :: rest, acc =>
    if isWs c then
      if acc = [] then splitWsAux rest [] else acc.reverse :: splitWsAux rest []
    else splitWsAux rest (c :: acc)

/-- `split(/\s+/)` on a string with no leading whitespace: tokens between
whitespace runs. -/
def splitWs (s : Str) : List Str := splitWsAux s []

theorem char_eq_of_toNat_eq {c d : Char} (h : c.toNat = d.toNat) : c = d := by
  apply Char.eq_of_val_eq
  apply UInt32.eq_of_val_eq
  exact Fin.eq_of_val_eq h

theorem lowerChar_toNat (c : Char) :
    (lowerChar c).toNat = if 65 ≤ c.toNat ∧ c.toNat ≤ 90 then c.toNat + 32 else c.toNat := by
  unfold lowerChar
  split
  · simp [Char.ofNatAux, Char.toNat, UInt32.toNat, UInt32.ofNatCore]
  · rfl

theorem isWs_congr_of_lower {c d : Char} (h : lowerChar c = lowerChar d) :
    isWs c = isWs d := by
  have hn : (lowerChar c).toNat = (lowerChar d).toNat := by rw [h]
  rw [lowerChar_toNat, lowerChar_toNat] at hn
  unfold isWs
  split at hn <;> split at hn <;>
    (apply decide_eq_decide.mpr; constructor <;> intro <;> omega)

/-! ### Header codec (`src/constants/header.ts`, `helpers/db/header.ts`) -/

/-- Total header bytes allocated for every database file. -/
def HEADER_SIZE : Nat := 100

/-- Bytes reserved for the magic string. -/
def MAGIC_LEN : Nat := 16

/-- Offset of the page size field (uint16 LE). -/
def PAGE_SIZE_OFFSET : Nat := 16

/-- Length of the page size field. -/
def PAGE_SIZE_LEN : Nat := 2

/-- Default page size for new files. -/
def DEFAULT_PAGE_SIZE : Nat := 4096

/-- Magic string identifying LiteCoreDB files. -/
def MAGIC_STRING : Str := str "LiteCoreDB v1"

/-- Minimum bytes required to parse a header. -/
def MIN_HEADER_VALID_BYTES : Nat := PAGE_SIZE_OFFSET + PAGE_SIZE_LEN

/-- `Buffer.alloc(n, 0)`. -/
def bufAllocZero (n : Nat) : List Nat := List.replicate n 0

/-- `buf.write(s, 0, "ascii")`: write the low byte of each character at
offset 0, truncated to the buffer's length. -/
def bufWriteAscii (buf : List Nat) (s : Str) : List Nat :=
  let w := (s.map (fun c => c.toNat % 256)).take buf.length
  w ++ buf.drop w.length

/-- `src.copy(dst, 0)`. -/
def bufCopy (src dst : List Nat) : List Nat :=
  let w := src.take dst.length
  w ++ dst.drop w.length

/-- `buf.writeUInt16LE(v, off)` for an in-range value. -/
def bufWriteUInt16LE (buf : List Nat) (v off : Nat) : List Nat :=
  (buf.set off (v % 256)).set (off + 1) (v / 256 % 256)

/-- `buf.readUInt16LE(off)`. -/
def readUInt16LE (buf : List Nat) (off : Nat) : Nat :=
  buf.getD off 0 + 256 * buf.getD (off + 1) 0

/-- `createHeader` from `helpers/db/header.ts`: a zero-filled 100-byte
buffer with the NUL-padded magic at [0,16) and the page size, masked to
16 bits (`pageSize & 0xffff`), stored little-endian at [16,18). -/
def createHeader (pageSize : Nat) : List Nat :=
  let header := bufAllocZero HEADER_SIZE
  let magicBuf := bufWriteAscii (bufAllocZero MAGIC_LEN) MAGIC_STRING
  let header2 := bufCopy magicBuf header
  bufWriteUInt16LE header2 (pageSize % 65536) PAGE_SIZE_OFFSET

/-- `buf.toString("ascii")`: each byte is masked to 7 bits. -/
def asciiDecode (bs : List Nat) : Str := bs.map (fun b => Char.ofNat (b % 128))

/-- `replace(/\0+$/, "")`: strip the trailing run of NUL characters. -/
def stripTrailingNul (cs : Str) : Str :=
  (cs.reverse.dropWhile (fun c => c = Char.ofNat 0)).reverse

/-- `isValidHeader` from `helpers/db/header.ts`. -/
def isValidHeader (buf : List Nat) : Bool :=
  if buf.length < MIN_HEADER_VALID_BYTES then false
  else if stripTrailingNul (asciiDecode (buf.take MAGIC_LEN)) ≠ MAGIC_STRING then false
  else decide (0 < readUInt16LE buf PAGE_SIZE_OFFSET)

/-- The bytes of the magic field: the ASCII codes of the magic string
followed by NUL padding. -/
def magicBytes : List Nat := MAGIC_STRING.map (fun c => c.toNat % 256) ++ List.replicate 3 0

theorem createHeader_flat (p : Nat) :
    createHeader p =
      magicBytes ++ [p % 65536 % 256, p % 65536 / 256 % 256] ++ List.replicate 82 0 := by
  rfl

theorem isValidHeader_createHeader (p : Nat) :
    isValidHeader (createHeader p) =
      decide (0 < p % 65536 % 256 + 256 * (p % 65536 / 256 % 256)) := by
  rfl

/-- C4: `isValidHeader (createHeader p)` holds for every page size in
[1, 65535]; `createHeader 0` is rejected even though the zero page size
itself is reproduced bit-for-bit (both page-size bytes are zero and read
back as zero). -/
theorem C4_header_roundtrip :
    (∀ p : Nat, 1 ≤ p → p ≤ 65535 → isValidHeader (createHeader p) = true) ∧
    isValidHeader (createHeader 0) = false ∧
    (createHeader 0).getD PAGE_SIZE_OFFSET 0 = 0 ∧
    (createHeader 0).getD (PAGE_SIZE_OFFSET + 1) 0 = 0 ∧
    readUInt16LE (createHeader 0) PAGE_SIZE_OFFSET = 0 := by
  refine ⟨?_, by decide, by decide, by decide, by decide⟩
  intro p h1 h2
  rw [isValidHeader_createHeader]
  have hp : p % 65536 = p := Nat.mod_eq_of_lt (by omega)
  rw [hp]
  simp only [decide_eq_true_eq]
  omega

theorem C4_header_roundtrip_witness :
    (1 ≤ 4096 ∧ 4096 ≤ 65535) ∧ isValidHeader (createHeader 4096) = true :=
  ⟨by decide, C4_header_roundtrip.1 4096 (by decide) (by decide)⟩

/-- C6: for every page size, `createHeader` returns exactly 100 bytes:
the NUL-padded ASCII magic at [0,16), the page size reduced modulo 2^16
stored little-endian at [16,18), and zeros everywhere else. -/
theorem C6_createHeader_layout (p : Nat) :
    (createHeader p).length = 100 ∧
    (createHeader p).take MAGIC_LEN =
      MAGIC_STRING.map (fun c => c.toNat % 256) ++ List.replicate 3 0 ∧
    (createHeader p).getD 16 0 = p % 2 ^ 16 % 256 ∧
    (createHeader p).getD 17 0 = p % 2 ^ 16 / 256 ∧
    (createHeader p).drop MIN_HEADER_VALID_BYTES = List.replicate 82 0 ∧
    readUInt16LE (createHeader p) PAGE_SIZE_OFFSET = p % 2 ^ 16 := by
  have h216 : (2 : Nat) ^ 16 = 65536 := by norm_num
  rw [createHeader_flat]
  refine ⟨by simp [magicBytes, MAGIC_STRING, str], rfl, ?_, ?_, rfl, ?_⟩
  · rw [h216]
    show p % 65536 % 256 = p % 65536 % 256
    rfl
  · rw [h216]
    show p % 65536 / 256 % 256 = p % 65536 / 256
    omega
  · rw [h216]
    show p % 65536 % 256 + 256 * (p % 65536 / 256 % 256) = p % 65536
    omega

/-! ### Levenshtein distance (`helpers/distance.ts`)

The source fills a `(m+1) × (n+1)` table row by row with
`dp[i][0] = i`, `dp[0][j] = j` and
`dp[i][j] = min(dp[i-1][j]+1, dp[i][j-1]+1, dp[i-1][j-1]+cost)`.
`levInner`/`levRow`/`levFold` build exactly those rows; `levenshtein`
keeps the early returns for empty inputs and reads `dp[m][n]`. -/

/-- One sweep of the inner `j` loop: `ups` are the entries
`dp[i-1][j..]`, `diag` is `dp[i-1][j-1]` and `left` is `dp[i][j-1]`. -/
def levInner (x : Char) : List Nat → Str → Nat → Nat → List Nat
  | up :: ups, y :: ys, diag, left =>
    let v := min (up + 1) (min (left + 1) (diag + (if x = y then 0 else 1)))
    v :: levInner x ups ys up v
  | _, _, _, _ => []

/-- Row `i` of the table, computed from row `i-1`. -/
def levRow (x : Char) (b : Str) (prev : List Nat) (i : Nat) : List Nat :=
  match prev with
  | [] => [i]
  | up0 :: rest => i :: levInner x rest b up0 i

/-- The outer `i` loop over the characters of `a`. -/
def levFold (b : Str) : Str → List Nat → Nat → List Nat
  | [], prev, _ => prev
  | x :: xs, prev, i => levFold b xs (levRow x b prev i) (i + 1)

/-- `levenshtein` from `helpers/distance.ts`. -/
def levenshtein (a b : Str) : Nat :=
  if a.length = 0 then b.length
  else if b.length = 0 then a.length
  else (levFold b a (List.range (b.length + 1)) 1).getLastD 0

/-- Reference recursion: `levCons x f` is the distance from `x :: xs`
when `f` is the distance from `xs`. -/
def levCons (x : Char) (f : Str → Nat) : Str → Nat
  | [] => f [] + 1
  | y :: ys => min (f (y :: ys) + 1) (min (levCons x f ys + 1) (f ys + (if x = y then 0 else 1)))

/-- The textbook edit-distance recursion, peeling head characters. -/
def levRec : Str → Str → Nat
  | [], ys => ys.length
  | x :: xs, ys => levCons x (levRec xs) ys

theorem levRec_nil (ys : Str) : levRec [] ys = ys.length := rfl

theorem levRec_cons_nil (x : Char) (xs : Str) : levRec (x :: xs) [] = levRec xs [] + 1 := rfl

theorem levRec_nil_right (xs : Str) : levRec xs [] = xs.length := by
  induction xs with
  | nil => rfl
  | cons x xs ih => rw [levRec_cons_nil, ih]; rfl

theorem levRec_cons_cons (x y : Char) (xs ys : Str) :
    levRec (x :: xs) (y :: ys) =
      min (levRec xs (y :: ys) + 1)
        (min (levRec (x :: xs) ys + 1) (levRec xs ys + (if x = y then 0 else 1))) := rfl

/-- Row entries of the table, as reference distances: starting from the
already-consumed suffix `rb` of `b`, successively prepend the characters
of `ys`. -/
def rowFrom (ra : Str) : Str → Str → List Nat
  | rb, [] => []
  | rb, y :: ys => levRec ra (y :: rb) :: rowFrom ra (y :: rb) ys

theorem levInner_spec (x : Char) (ra : Str) : ∀ (ys rb : Str),
    levInner x (rowFrom ra rb ys) ys (levRec ra rb) (levRec (x :: ra) rb) =
      rowFrom (x :: ra) rb ys := by
  intro ys
  induction ys with
  | nil => intro rb; rfl
  | cons y ys ih =>
    intro rb
    show (min (levRec ra (y :: rb) + 1)
        (min (levRec (x :: ra) rb + 1) (levRec ra rb + (if x = y then 0 else 1)))) ::
        levInner x (rowFrom ra (y :: rb) ys) ys (levRec ra (y :: rb))
          (min (levRec ra (y :: rb) + 1)
            (min (levRec (x :: ra) rb + 1) (levRec ra rb + (if x = y then 0 else 1)))) =
      levRec (x :: ra) (y :: rb) :: rowFrom (x :: ra) (y :: rb) ys
    rw [← levRec_cons_cons, ih]

theorem levRow_spec (x : Char) (ra b : Str) :
    levRow x b (levRec ra [] :: rowFrom ra [] b) (levRec (x :: ra) []) =
      levRec (x :: ra) [] :: rowFrom (x :: ra) [] b := by
  show levRec (x :: ra) [] :: levInner x (rowFrom ra [] b) b (levRec ra []) (levRec (x :: ra) []) = _
  rw [levInner_spec]

theorem levFold_spec (b : Str) : ∀ (xs ra : Str),
    levFold b xs (levRec ra [] :: rowFrom ra [] b) (levRec ra [] + 1) =
      levRec (xs.reverse ++ ra) [] :: rowFrom (xs.reverse ++ ra) [] b := by
  intro xs
  induction xs with
  | nil => intro ra; rfl
  | cons x xs ih =>
    intro ra
    show levFold b xs (levRow x b (levRec ra [] :: rowFrom ra [] b) (levRec ra [] + 1))
        (levRec ra [] + 1 + 1) = _
    rw [show levRec ra [] + 1 = levRec (x :: ra) [] from (levRec_cons_nil x ra).symm]
    rw [levRow_spec, ih]
    rw [show xs.reverse ++ (x :: ra) = (x :: xs).reverse ++ ra by
      rw [List.reverse_cons, List.append_assoc]; rfl]

theorem rowFrom_nil : ∀ (ys rb : Str), rowFrom [] rb ys = List.range' (rb.length + 1) ys.length := by
  intro ys
  induction ys with
  | nil => intro rb; rfl
  | cons y ys ih =>
    intro rb
    show levRec [] (y :: rb) :: rowFrom [] (y :: rb) ys = _
    rw [levRec_nil, ih]
    simp [List.range'_succ]

theorem rowFrom_getLastD (ra : Str) : ∀ (ys rb : Str) (d : Nat), ys ≠ [] →
    (rowFrom ra rb ys).getLastD d = levRec ra (ys.reverse ++ rb) := by
  intro ys
  induction ys with
  | nil => intro rb d h; exact absurd rfl h
  | cons y ys ih =>
    intro rb d _
    show (levRec ra (y :: rb) :: rowFrom ra (y :: rb) ys).getLastD d = _
    rcases eq_or_ne ys [] with h | h
    · subst h; rfl
    · rw [List.getLastD_cons, ih (y :: rb) _ h]
      rw [show ys.reverse ++ (y :: rb) = (y :: ys).reverse ++ rb by
        rw [List.reverse_cons, List.append_assoc]; rfl]

/-- The table computed by the source equals the reference recursion on
the reversed strings. -/
theorem levenshtein_eq_levRec (a b : Str) :
    levenshtein a b = levRec a.reverse b.reverse := by
  unfold levenshtein
  rcases eq_or_ne a [] with ha | ha
  · subst ha; simp [levRec_nil]
  · rcases eq_or_ne b [] with hb | hb
    · subst hb
      rw [if_neg (by simpa using ha)]
      simp [levRec_nil_right]
    · rw [if_neg (by simpa using ha), if_neg (by simpa using hb)]
      have hrange : List.range (b.length + 1) = levRec [] [] :: rowFrom [] [] b := by
        rw [rowFrom_nil, levRec_nil]
        rw [List.range_eq_range']
        simp [List.range'_succ]
      rw [hrange]
      rw [show (1 : Nat) = levRec [] [] + 1 from rfl]
      rw [levFold_spec]
      rw [List.getLastD_cons]
      rw [rowFrom_getLastD _ _ _ _ hb]
      simp

/-- Edit scripts: `Edits xs ys n` holds when `xs` can be turned into
`ys` by `n` unit-cost insertions, deletions and substitutions. -/
inductive Edits : Str → Str → Nat → Prop
  | nil : Edits [] [] 0
  | keep : ∀ (c : Char) (xs ys : Str) (n : Nat), Edits xs ys n → Edits (c :: xs) (c :: ys) n
  | subst : ∀ (c d : Char) (xs ys : Str) (n : Nat),
      Edits xs ys n → Edits (c :: xs) (d :: ys) (n + 1)
  | del : ∀ (c : Char) (xs ys : Str) (n : Nat), Edits xs ys n → Edits (c :: xs) ys (n + 1)
  | ins : ∀ (c : Char) (xs ys : Str) (n : Nat), Edits xs ys n → Edits xs (c :: ys) (n + 1)

theorem edits_nil_left : ∀ ys : Str, Edits [] ys ys.length := by
  intro ys
  induction ys with
  | nil => exact Edits.nil
  | cons y ys ih => exact Edits.ins y _ _ _ ih

theorem edits_nil_right : ∀ xs : Str, Edits xs [] xs.length := by
  intro xs
  induction xs with
  | nil => exact Edits.nil
  | cons x xs ih => exact Edits.del x _ _ _ ih

/-- The reference recursion is realized by some edit script. -/
theorem edits_levRec : ∀ xs ys : Str, Edits xs ys (levRec xs ys) := by
  intro xs
  induction xs with
  | nil => intro ys; rw [levRec_nil]; exact edits_nil_left ys
  | cons x xs ihx =>
    intro ys
    induction ys with
    | nil =>
      rw [levRec_cons_nil, levRec_nil_right]
      exact edits_nil_right (x :: xs)
    | cons y ys ihy =>
      rw [levRec_cons_cons]
      rcases min_choice (levRec xs (y :: ys) + 1)
        (min (levRec (x :: xs) ys + 1) (levRec xs ys + (if x = y then 0 else 1))) with h | h <;>
        rw [h]
      · exact Edits.del x _ _ _ (ihx (y :: ys))
      · rcases min_choice (levRec (x :: xs) ys + 1)
          (levRec xs ys + (if x = y then 0 else 1)) with h2 | h2 <;> rw [h2]
        · exact Edits.ins y _ _ _ ihy
        · by_cases hxy : x = y
          · subst hxy
            rw [if_pos rfl]
            exact Edits.keep x _ _ _ (ihx ys)
          · rw [if_neg hxy]
            exact Edits.subst x y _ _ _ (ihx ys)

theorem levRec_cons_left_le (c : Char) (xs ys : Str) :
    levRec (c :: xs) ys ≤ levRec xs ys + 1 := by
  cases ys with
  | nil => rw [levRec_cons_nil]
  | cons y ys => rw [levRec_cons_cons]; exact min_le_left _ _

theorem levRec_cons_right_le (c : Char) (xs ys : Str) :
    levRec xs (c :: ys) ≤ levRec xs ys + 1 := by
  cases xs with
  | nil => rw [levRec_nil, levRec_nil]; rfl
  | cons x xs =>
    rw [levRec_cons_cons]
    exact le_trans (min_le_right _ _) (min_le_left _ _)

/-- The reference recursion is minimal over edit scripts. -/
theorem edits_ge {xs ys : Str} {n : Nat} (E : Edits xs ys n) : levRec xs ys ≤ n := by
  induction E with
  | nil => exact Nat.le_refl 0
  | keep c xs ys n E ih =>
    rw [levRec_cons_cons]
    refine le_trans (le_trans (min_le_right _ _) (min_le_right _ _)) ?_
    rw [if_pos rfl]
    exact ih
  | subst c d xs ys n E ih =>
    rw [levRec_cons_cons]
    refine le_trans (le_trans (min_le_right _ _) (min_le_right _ _)) ?_
    have hc : levRec xs ys + (if c = d then 0 else 1) ≤ levRec xs ys + 1 := by
      split <;> omega
    exact le_trans hc (by omega)
  | del c xs ys n E ih =>
    exact le_trans (levRec_cons_left_le _ _ _) (by omega)
  | ins c xs ys n E ih =>
    exact le_trans (levRec_cons_right_le _ _ _) (by omega)

/-- Edit scripts compose, with additive cost. -/
theorem edits_comp_aux : ∀ N : Nat, ∀ a b c : Str, ∀ m n : Nat,
    a.length + b.length + c.length ≤ N →
    Edits a b m → Edits b c n → ∃ k, k ≤ m + n ∧ Edits a c k := by
  intro N
  induction N with
  | zero =>
    intro a b c m n hN E1 E2
    have ha : a = [] := by cases a <;> simp_all
    have hb : b = [] := by cases b <;> simp_all
    have hc : c = [] := by cases c <;> simp_all
    subst ha; subst hb; subst hc
    cases E1
    cases E2
    exact ⟨0, Nat.le_refl 0, Edits.nil⟩
  | succ N ih =>
    intro a b c m n hN E1 E2
    cases E1 with
    | nil => exact ⟨n, by omega, E2⟩
    | keep x a' b' m' E1' =>
      cases E2 with
      | keep y b2 c' n' E2' =>
        obtain ⟨k, hk, E⟩ := ih a' b' c' _ _ (by simp at hN ⊢; omega) E1' E2'
        exact ⟨k, hk, Edits.keep x _ _ _ E⟩
      | subst y d b2 c' n' E2' =>
        obtain ⟨k, hk, E⟩ := ih a' b' c' _ _ (by simp at hN ⊢; omega) E1' E2'
        exact ⟨k + 1, by omega, Edits.subst x d _ _ _ E⟩
      | del y b2 c' n' E2' =>
        obtain ⟨k, hk, E⟩ := ih a' b' c _ _ (by simp at hN ⊢; omega) E1' E2'
        exact ⟨k + 1, by omega, Edits.del x _ _ _ E⟩
      | ins e b2 c' n' E2' =>
        obtain ⟨k, hk, E⟩ := ih (x :: a') (x :: b') c' _ _ (by simp at hN ⊢; omega)
          (Edits.keep x _ _ _ E1') E2'
        exact ⟨k + 1, by omega, Edits.ins e _ _ _ E⟩
    | subst x d a' b' m' E1' =>
      cases E2 with
      | keep y b2 c' n' E2' =>
        obtain ⟨k, hk, E⟩ := ih a' b' c' _ _ (by simp at hN ⊢; omega) E1' E2'
        exact ⟨k + 1, by omega, Edits.subst x d _ _ _ E⟩
      | subst y e b2 c' n' E2' =>
        obtain ⟨k, hk, E⟩ := ih a' b' c' _ _ (by simp at hN ⊢; omega) E1' E2'
        exact ⟨k + 1, by omega, Edits.subst x e _ _ _ E⟩
      | del y b2 c' n' E2' =>
        obtain ⟨k, hk, E⟩ := ih a' b' c _ _ (by simp at hN ⊢; omega) E1' E2'
        exact ⟨k + 1, by omega, Edits.del x _ _ _ E⟩
      | ins e b2 c' n' E2' =>
        obtain ⟨k, hk, E⟩ := ih (x :: a') (d :: b') c' _ _ (by simp at hN ⊢; omega)
          (Edits.subst x d _ _ _ E1') E2'
        exact ⟨k + 1, by omega, Edits.ins e _ _ _ E⟩
    | del x a' b2 m' E1' =>
      obtain ⟨k, hk, E⟩ := ih a' b c _ _ (by simp at hN ⊢; omega) E1' E2
      exact ⟨k + 1, by omega, Edits.del x _ _ _ E⟩
    | ins d a2 b' m' E1' =>
      cases E2 with
      | keep y b2 c' n' E2' =>
        obtain ⟨k, hk, E⟩ := ih a b' c' _ _ (by simp at hN ⊢; omega) E1' E2'
        exact ⟨k + 1, by omega, Edits.ins d _ _ _ E⟩
      | subst y e b2 c' n' E2' =>
        obtain ⟨k, hk, E⟩ := ih a b' c' _ _ (by simp at hN ⊢; omega) E1' E2'
        exact ⟨k + 1, by omega, Edits.ins e _ _ _ E⟩
      | del y b2 c' n' E2' =>
        obtain ⟨k, hk, E⟩ := ih a b' c _ _ (by simp at hN ⊢; omega) E1' E2'
        exact ⟨k, by omega, E⟩
      | ins e b2 c' n' E2' =>
        obtain ⟨k, hk, E⟩ := ih a (d :: b') c' _ _ (by simp at hN ⊢; omega)
          (Edits.ins d _ _ _ E1') E2'
        exact ⟨k + 1, by omega, Edits.ins e _ _ _ E⟩

theorem levRec_triangle (a b c : Str) : levRec a c ≤ levRec a b + levRec b c := by
  obtain ⟨k, hk, E⟩ := edits_comp_aux (a.length + b.length + c.length) a b c _ _
    (Nat.le_refl _) (edits_levRec a b) (edits_levRec b c)
  exact le_trans (edits_ge E) hk

theorem levRec_self (a : Str) : levRec a a = 0 := by
  induction a with
  | nil => rfl
  | cons x xs ih =>
    rw [levRec_cons_cons]
    refine Nat.le_antisymm ?_ (Nat.zero_le _)
    refine le_trans (le_trans (min_le_right _ _) (min_le_right _ _)) ?_
    rw [if_pos rfl, ih]

theorem levRec_comm : ∀ a b : Str, levRec a b = levRec b a := by
  intro a
  induction a with
  | nil => intro b; rw [levRec_nil, levRec_nil_right]
  | cons x xs ihx =>
    intro b
    induction b with
    | nil => rw [levRec_nil, levRec_nil_right]
    | cons y ys ihy =>
      rw [levRec_cons_cons, levRec_cons_cons]
      rw [ihx (y :: ys), ihx ys, ihy]
      rw [show (if x = y then 0 else 1) = (if y = x then 0 else 1) by
        by_cases h : x = y
        · rw [if_pos h, if_pos h.symm]
        · rw [if_neg h, if_neg (fun hyx => h hyx.symm)]]
      omega

theorem edits_zero {a b : Str} {n : Nat} (E : Edits a b n) (h : n = 0) : a = b := by
  induction E with
  | nil => rfl
  | keep c xs ys n E ih => rw [ih h]
  | subst c d xs ys n E ih => omega
  | del c xs ys n E ih => omega
  | ins c xs ys n E ih => omega

theorem levRec_eq_zero_iff (a b : Str) : levRec a b = 0 ↔ a = b := by
  constructor
  · intro h
    exact edits_zero (h ▸ edits_levRec a b) rfl
  · intro h
    subst h
    exact levRec_self a

/-- C7: `levenshtein` is symmetric, zero exactly on equal strings, and
satisfies the triangle inequality — it is a metric.  Its value is the
classic unit-cost dynamic-programming edit distance, embedded above as
the row-by-row table of the source. -/
theorem C7_levenshtein_metric :
    (∀ a b : Str, levenshtein a b = levenshtein b a) ∧
    (∀ a : Str, levenshtein a a = 0) ∧
    (∀ a b c : Str, levenshtein a c ≤ levenshtein a b + levenshtein b c) ∧
    (∀ a b : Str, levenshtein a b = 0 ↔ a = b) := by
  refine ⟨?_, ?_, ?_, ?_⟩
  · intro a b
    rw [levenshtein_eq_levRec, levenshtein_eq_levRec, levRec_comm]
  · intro a
    rw [levenshtein_eq_levRec, levRec_self]
  · intro a b c
    rw [levenshtein_eq_levRec, levenshtein_eq_levRec, levenshtein_eq_levRec]
    exact levRec_triangle _ _ _
  · intro a b
    rw [levenshtein_eq_levRec, levRec_eq_zero_iff]
    exact List.reverse_inj

/-! ### Name normalization and help tokens
(`helpers/strings.ts`, `helpers/help.ts`) -/

/-- `name.replace(/^\./, "")`: strip at most one leading dot. -/
def stripLeadingDot : Str → Str
  | [] => []
  | c :: rest => if c = '.' then rest else c :: rest

/-- `normalizeName` from `helpers/strings.ts`: strip one optional leading
dot, then lowercase. -/
def normalizeName (s : Str) : Str := lowerStr (stripLeadingDot s)

/-- `isHelpToken` from `helpers/help.ts`: full case-insensitive match of
`help`, `--help`, `-h` or `?`. -/
def isHelpToken (t : Str) : Bool :=
  lowerStr t == str "help" || lowerStr t == str "--help" ||
    lowerStr t == str "-h" || lowerStr t == str "?"

/-! ### Regex machinery (`escapeRegex` and the patterns built from it)

The router compiles each canonical name into `^esc(name)(?=\s|$)` (start
match) or `^esc(name)$` (exact match), both with the `i` flag, where
`esc` is `escapeRegex`.  The pattern language reachable from these
constructions is a sequence of atoms: a backslash-escaped character
(literal), an unescaped `.` (any character except line terminators), or
any other ordinary character (literal).  The anchors and the lookahead
are modelled directly by `nameMatchAtStart` / `reFullMatch`. -/

/-- The characters `escapeRegex` escapes: `[.*+?^${}()|[\]\\]`. -/
def regexMetaChars : List Char :=
  ['.', '*', '+', '?', '^', '$', '\x7b', '\x7d', '(', ')', '|', '[', ']', '\\']

/-- `escapeRegex` from `helpers/strings.ts`. -/
def escapeRegex (s : Str) : Str :=
  s.flatMap (fun c => if c ∈ regexMetaChars then ['\\', c] else [c])

/-- One pattern atom. -/
inductive Atom where
  | lit : Char → Atom
  | anyChar : Atom
deriving DecidableEq

/-- Parse a pattern (as produced by `escapeRegex` plus any unescaped
dots) into atoms.  A trailing lone backslash is a regex syntax error and
unreachable from escaped names; it parses to nothing. -/
def parseAtoms : Str → List Atom
  | [] => []
  | c :: rest =>
    if c = '\\' then
      match rest with
      | [] => []
      | d :: rest2 => Atom.lit d :: parseAtoms rest2
    else if c = '.' then Atom.anyChar :: parseAtoms rest
    else Atom.lit c :: parseAtoms rest

/-- Atom-versus-character matching under the `i` flag; `.` matches
anything but a line terminator. -/
def atomMatches : Atom → Char → Bool
  | Atom.lit c, d => lowerChar c == lowerChar d
  | Atom.anyChar, d =>
    !(decide (d.toNat = 10 ∨ d.toNat = 13 ∨ d.toNat = 8232 ∨ d.toNat = 8233))

/-- Anchored prefix match: the number of characters the atoms consume
from the start of the input, if they all match. -/
def reFindLen : List Atom → Str → Option Nat
  | [], _ => some 0
  | _ :: _, [] => none
  | a :: as, c :: cs =>
    if atomMatches a c then (reFindLen as cs).map (· + 1) else none

/-- The test of `^esc(name)(?=\s|$)` against the start of `input`:
the matched length, if the name matches at a token boundary. -/
def nameMatchAtStart (name input : Str) : Option Nat :=
  match reFindLen (parseAtoms (escapeRegex name)) input with
  | none => none
  | some len =>
    if len < input.length then
      if isWs (input.getD len ' ') then some len else none
    else some len

/-- The test of `^esc(name)$` against `query`. -/
def reFullMatch (name query : Str) : Bool :=
  match reFindLen (parseAtoms (escapeRegex name)) query with
  | none => false
  | some len => len == query.length

/-- Escaping makes every character of a name a literal atom. -/
theorem parseAtoms_escapeRegex : ∀ s : Str, parseAtoms (escapeRegex s) = s.map Atom.lit := by
  intro s
  induction s with
  | nil => rfl
  | cons c rest ih =>
    show parseAtoms ((if c ∈ regexMetaChars then ['\\', c] else [c]) ++ escapeRegex rest) = _
    by_cases h : c ∈ regexMetaChars
    · rw [if_pos h]
      show parseAtoms ('\\' :: c :: escapeRegex rest) = _
      rw [parseAtoms.eq_def]
      show Atom.lit c :: parseAtoms (escapeRegex rest) = _
      rw [ih]
      rfl
    · rw [if_neg h]
      have hc1 : c ≠ '\\' := fun hc => h (by rw [hc]; decide)
      have hc2 : c ≠ '.' := fun hc => h (by rw [hc]; decide)
      show parseAtoms (c :: escapeRegex rest) = _
      rw [parseAtoms.eq_def]
      show (if c = '\\' then _ else if c = '.' then Atom.anyChar :: parseAtoms (escapeRegex rest) else Atom.lit c :: parseAtoms (escapeRegex rest)) = _
      rw [if_neg hc1, if_neg hc2, ih]
      rfl

/-- Matching a list of literal atoms is case-insensitive prefix
comparison, and consumes exactly the pattern's length. -/
theorem reFindLen_lit : ∀ p s : Str,
    reFindLen (p.map Atom.lit) s =
      if p.length ≤ s.length ∧ lowerStr (s.take p.length) = lowerStr p then some p.length
      else none := by
  intro p
  induction p with
  | nil =>
    intro s
    rw [if_pos (by simp [lowerStr])]
    rfl
  | cons c p ih =>
    intro s
    cases s with
    | nil =>
      rw [if_neg (by simp)]
      rfl
    | cons d s =>
      show (if atomMatches (Atom.lit c) d then (reFindLen (p.map Atom.lit) s).map (· + 1)
          else none) = _
      rw [ih s]
      by_cases hm : lowerChar c = lowerChar d
      · rw [if_pos (by simp [atomMatches, hm])]
        by_cases hrest : p.length ≤ s.length ∧ lowerStr (s.take p.length) = lowerStr p
        · rw [if_pos hrest, if_pos ?side]
          · rfl
          case side =>
            refine ⟨by simp; omega, ?_⟩
            show lowerChar d :: lowerStr (s.take p.length) = lowerChar c :: lowerStr p
            rw [hrest.2, hm]
        · rw [if_neg hrest, if_neg ?side2]
          · rfl
          case side2 =>
            intro hcon
            apply hrest
            refine ⟨by simp at hcon; omega, ?_⟩
            have := hcon.2
            simp only [List.take, lowerStr, List.map] at this
            exact (List.cons.injEq _ _ _ _).mp this |>.2
      · rw [if_neg (by simp [atomMatches, hm])]
        rw [if_neg ?side3]
        case side3 =>
          intro hcon
          have := hcon.2
          simp only [List.take, lowerStr, List.map] at this
          exact hm (((List.cons.injEq _ _ _ _).mp this |>.1).symm)

/-- Start-of-line matching, characterized: the escaped name matches the
beginning of `input` case-insensitively, the matched length is the
name's length, and the match ends at a token boundary. -/
theorem nameMatchAtStart_iff (name input : Str) (len : Nat) :
    nameMatchAtStart name input = some len ↔
      (len = name.length ∧ name.length ≤ input.length ∧
       lowerStr (input.take name.length) = lowerStr name ∧
       (input.length ≤ name.length ∨ isWs (input.getD name.length ' ') = true)) := by
  unfold nameMatchAtStart
  rw [parseAtoms_escapeRegex, reFindLen_lit]
  by_cases h : name.length ≤ input.length ∧ lowerStr (input.take name.length) = lowerStr name
  · rw [if_pos h]
    show (if name.length < input.length then _ else _) = some len ↔ _
    by_cases hlt : name.length < input.length
    · rw [if_pos hlt]
      by_cases hws : isWs (input.getD name.length ' ') = true
      · rw [if_pos hws]
        constructor
        · intro hs
          injection hs with hs
          exact ⟨hs.symm, h.1, h.2, Or.inr hws⟩
        · intro hc
          rw [hc.1]
      · rw [if_neg hws]
        constructor
        · intro hs; cases hs
        · intro hc
          rcases hc.2.2.2 with hle | hw
          · omega
          · exact absurd hw hws
    · rw [if_neg hlt]
      constructor
      · intro hs
        injection hs with hs
        exact ⟨hs.symm, h.1, h.2, Or.inl (by omega)⟩
      · intro hc
        rw [hc.1]
  · rw [if_neg h]
    show (none : Option Nat) = some len ↔ _
    constructor
    · intro hs; cases hs
    · intro hc
      exact absurd ⟨hc.2.1, hc.2.2.1⟩ h

/-- Exact-name matching is case-insensitive equality with the full
canonical name. -/
theorem reFullMatch_iff (name q : Str) :
    reFullMatch name q = true ↔ lowerStr name = lowerStr q := by
  unfold reFullMatch
  rw [parseAtoms_escapeRegex, reFindLen_lit]
  by_cases h : name.length ≤ q.length ∧ lowerStr (q.take name.length) = lowerStr name
  · rw [if_pos h]
    show (name.length == q.length) = true ↔ _
    rw [Nat.beq_eq_true_eq]
    constructor
    · intro hlen
      rw [← h.2, hlen, List.take_length]
    · intro hlow
      have h1 : (lowerStr name).length = (lowerStr q).length := by rw [hlow]
      simpa [lowerStr] using h1
  · rw [if_neg h]
    constructor
    · intro hs; cases hs
    · intro hlow
      apply absurd ?_ h
      have h1 : (lowerStr name).length = (lowerStr q).length := by rw [hlow]
      have h2 : name.length = q.length := by simpa [lowerStr] using h1
      refine ⟨by omega, ?_⟩
      rw [h2, List.take_length, hlow]

/-! ### The router (`src/router.ts`)

A command is its canonical name and one-line description; the side
effects of `help()` and `execute()` are recorded as events, and the
behavior of `execute` (normal return or thrown error) is a parameter
`execF` of the router, keyed by the command's canonical name. -/

/-- A registered command: canonical name and description. -/
structure Cmd where
  name : Str
  description : Str
deriving DecidableEq

/-- Observable effects of routing one input line. -/
inductive Event where
  | globalHelp : Event
  | helpInvoked : Str → Event
  | execInvoked : Str → List Str → Event
  | log : Str → Event
  | errLog : Str → Event
deriving DecidableEq

/-- `Router.findCommandByExactName`: first command whose name matches
`^esc(name)$` (case-insensitive) against the trimmed token. -/
def findCommandByExactName (cmds : List Cmd) (token : Str) : Option Cmd :=
  cmds.find? (fun c => reFullMatch c.name (trimJS token))

/-- Loop body of `Router.findCommandAtStart`: keep the best (longest,
first on ties) nonempty start-of-line match, mirroring
`if (m && m[0]) { if (!best || len > best.matchedLen) ... }`. -/
def findAtStartAux (input : Str) : List Cmd → Option (Cmd × Nat) → Option (Cmd × Nat)
  | [], best => best
  | c :: rest, best =>
    match nameMatchAtStart c.name input with
    | none => findAtStartAux input rest best
    | some len =>
      if len ≠ 0 then
        match best with
        | none => findAtStartAux input rest (some (c, len))
        | some b =>
          if len > b.2 then findAtStartAux input rest (some (c, len))
          else findAtStartAux input rest (some b)
      else findAtStartAux input rest best

/-- `Router.findCommandAtStart`. -/
def findCommandAtStart (cmds : List Cmd) (input : Str) : Option (Cmd × Nat) :=
  findAtStartAux input cmds none

theorem findAtStartAux_mono (input : Str) :
    ∀ (cmds : List Cmd) (b : Cmd × Nat) (r : Cmd × Nat),
      findAtStartAux input cmds (some b) = some r → b.2 ≤ r.2 := by
  intro cmds
  induction cmds with
  | nil =>
    intro b r h
    injection h with h
    rw [h]
  | cons c rest ih =>
    intro b r h
    rw [findAtStartAux] at h
    rcases hm : nameMatchAtStart c.name input with _ | len <;> rw [hm] at h <;>
      dsimp only at h
    · exact ih b r h
    · by_cases h0 : len ≠ 0
      · rw [if_pos h0] at h
        by_cases hgt : len > b.2
        · rw [if_pos hgt] at h
          have := ih (c, len) r h
          omega
        · rw [if_neg hgt] at h
          exact ih b r h
      · rw [if_neg h0] at h
        exact ih b r h

theorem findAtStartAux_isSome_of_best (input : Str) :
    ∀ (cmds : List Cmd) (b : Cmd × Nat),
      (findAtStartAux input cmds (some b)).isSome = true := by
  intro cmds
  induction cmds with
  | nil => intro b; rfl
  | cons c rest ih =>
    intro b
    rw [findAtStartAux]
    rcases hm : nameMatchAtStart c.name input with _ | len <;> dsimp only
    · exact ih b
    · by_cases h0 : len ≠ 0
      · rw [if_pos h0]
        by_cases hgt : len > b.2
        · rw [if_pos hgt]; exact ih (c, len)
        · rw [if_neg hgt]; exact ih b
      · rw [if_neg h0]
        exact ih b

theorem findAtStartAux_sound (input : Str) :
    ∀ (cmds : List Cmd) (best : Option (Cmd × Nat)) (r : Cmd × Nat),
      findAtStartAux input cmds best = some r →
      (r.1 ∈ cmds ∧ nameMatchAtStart r.1.name input = some r.2 ∧ r.2 ≠ 0) ∨ best = some r := by
  intro cmds
  induction cmds with
  | nil =>
    intro best r h
    exact Or.inr h
  | cons c rest ih =>
    intro best r h
    rw [findAtStartAux] at h
    rcases hm : nameMatchAtStart c.name input with _ | len <;> rw [hm] at h <;>
      dsimp only at h
    · rcases ih best r h with ⟨h1, h2, h3⟩ | h1
      · exact Or.inl ⟨List.mem_cons_of_mem _ h1, h2, h3⟩
      · exact Or.inr h1
    · by_cases h0 : len ≠ 0
      · rw [if_pos h0] at h
        have step : ∀ b2 : Cmd × Nat, findAtStartAux input rest (some b2) = some r →
            (b2 = (c, len) ∨ best = some b2) →
            (r.1 ∈ c :: rest ∧ nameMatchAtStart r.1.name input = some r.2 ∧ r.2 ≠ 0) ∨
              best = some r := by
          intro b2 hb2 hor
          rcases ih (some b2) r hb2 with ⟨h1, h2, h3⟩ | h1
          · exact Or.inl ⟨List.mem_cons_of_mem _ h1, h2, h3⟩
          · injection h1 with h1
            rcases hor with h4 | h4
            · have hr : r = (c, len) := h1.symm.trans h4
              subst hr
              exact Or.inl ⟨List.mem_cons_self _ _, hm, h0⟩
            · rw [← h1]
              exact Or.inr h4
        rcases best with _ | b <;> dsimp only at h
        · exact step (c, len) h (Or.inl rfl)
        · by_cases hgt : len > b.2
          · rw [if_pos hgt] at h
            exact step (c, len) h (Or.inl rfl)
          · rw [if_neg hgt] at h
            exact step b h (Or.inr rfl)
      · rw [if_neg h0] at h
        rcases ih best r h with ⟨h1, h2, h3⟩ | h1
        · exact Or.inl ⟨List.mem_cons_of_mem _ h1, h2, h3⟩
        · exact Or.inr h1

theorem findAtStartAux_max (input : Str) :
    ∀ (cmds : List Cmd) (best : Option (Cmd × Nat)) (r : Cmd × Nat),
      findAtStartAux input cmds best = some r →
      ∀ c ∈ cmds, ∀ l, nameMatchAtStart c.name input = some l → l ≠ 0 → l ≤ r.2 := by
  intro cmds
  induction cmds with
  | nil =>
    intro best r h c hc
    cases hc
  | cons c0 rest ih =>
    intro best r h c hc l hl h0
    rw [findAtStartAux] at h
    rcases List.mem_cons.mp hc with rfl | hc2
    · rw [hl] at h
      dsimp only at h
      rw [if_pos h0] at h
      rcases best with _ | b <;> dsimp only at h
      · exact findAtStartAux_mono input rest (c, l) r h
      · by_cases hgt : l > b.2
        · rw [if_pos hgt] at h
          exact findAtStartAux_mono input rest (c, l) r h
        · rw [if_neg hgt] at h
          have := findAtStartAux_mono input rest b r h
          omega
    · rcases hm : nameMatchAtStart c0.name input with _ | len <;> rw [hm] at h <;>
        dsimp only at h
      · exact ih best r h c hc2 l hl h0
      · by_cases hz : len ≠ 0
        · rw [if_pos hz] at h
          rcases best with _ | b <;> dsimp only at h
          · exact ih _ r h c hc2 l hl h0
          · by_cases hgt : len > b.2
            · rw [if_pos hgt] at h
              exact ih _ r h c hc2 l hl h0
            · rw [if_neg hgt] at h
              exact ih _ r h c hc2 l hl h0
        · rw [if_neg hz] at h
          exact ih best r h c hc2 l hl h0

theorem findAtStartAux_exists (input : Str) :
    ∀ (cmds : List Cmd) (c : Cmd), c ∈ cmds →
      ∀ l, nameMatchAtStart c.name input = some l → l ≠ 0 →
      (findAtStartAux input cmds none).isSome = true := by
  intro cmds
  induction cmds with
  | nil =>
    intro c hc
    cases hc
  | cons c0 rest ih =>
    intro c hc l hl h0
    rw [findAtStartAux]
    rcases List.mem_cons.mp hc with rfl | hc2
    · rw [hl]
      dsimp only
      rw [if_pos h0]
      exact findAtStartAux_isSome_of_best input rest (c, l)
    · rcases hm : nameMatchAtStart c0.name input with _ | len <;> dsimp only
      · exact ih c hc2 l hl h0
      · by_cases hz : len ≠ 0
        · rw [if_pos hz]
          exact findAtStartAux_isSome_of_best input rest (c0, len)
        · rw [if_neg hz]
          exact ih c hc2 l hl h0

theorem atomMatches_congr (a : Atom) {c d : Char} (h : lowerChar c = lowerChar d) :
    atomMatches a c = atomMatches a d := by
  cases a with
  | lit e =>
    show (lowerChar e == lowerChar c) = (lowerChar e == lowerChar d)
    rw [h]
  | anyChar =>
    show (!decide _) = (!decide _)
    have hn : (lowerChar c).toNat = (lowerChar d).toNat := by rw [h]
    rw [lowerChar_toNat, lowerChar_toNat] at hn
    have : (decide (c.toNat = 10 ∨ c.toNat = 13 ∨ c.toNat = 8232 ∨ c.toNat = 8233)) =
        (decide (d.toNat = 10 ∨ d.toNat = 13 ∨ d.toNat = 8232 ∨ d.toNat = 8233)) := by
      split at hn <;> split at hn <;>
        (apply decide_eq_decide.mpr; constructor <;> intro <;> omega)
    rw [this]

theorem reFindLen_congr : ∀ (atoms : List Atom) (s s' : Str),
    lowerStr s = lowerStr s' → reFindLen atoms s = reFindLen atoms s' := by
  intro atoms
  induction atoms with
  | nil => intro s s' h; rfl
  | cons a as ih =>
    intro s s' h
    cases s with
    | nil =>
      cases s' with
      | nil => rfl
      | cons d s' => simp [lowerStr] at h
    | cons c s =>
      cases s' with
      | nil => simp [lowerStr] at h
      | cons d s' =>
        simp only [lowerStr, List.map] at h
        have hh := (List.cons.injEq _ _ _ _).mp h
        show (if atomMatches a c then _ else _) = (if atomMatches a d then _ else _)
        rw [atomMatches_congr a hh.1, ih s s' hh.2]

theorem length_eq_of_lower {s s' : Str} (h : lowerStr s = lowerStr s') :
    s.length = s'.length := by
  have := congrArg List.length h
  simpa [lowerStr] using this

theorem getD_lower {s s' : Str} (h : lowerStr s = lowerStr s') (n : Nat) (hn : n < s.length) :
    lowerChar (s.getD n ' ') = lowerChar (s'.getD n ' ') := by
  have hlen := length_eq_of_lower h
  have h1 : (lowerStr s).getD n (lowerChar ' ') = (lowerStr s').getD n (lowerChar ' ') := by
    rw [h]
  rwa [lowerStr, lowerStr, List.getD_map, List.getD_map] at h1

theorem nameMatchAtStart_congr (name : Str) {s s' : Str} (h : lowerStr s = lowerStr s') :
    nameMatchAtStart name s = nameMatchAtStart name s' := by
  unfold nameMatchAtStart
  rw [reFindLen_congr _ s s' h]
  rcases reFindLen (parseAtoms (escapeRegex name)) s' with _ | len
  · rfl
  · dsimp only
    have hlen := length_eq_of_lower h
    rw [hlen]
    by_cases hlt : len < s'.length
    · rw [if_pos hlt, if_pos hlt]
      have := getD_lower h len (by omega)
      rw [isWs_congr_of_lower this]
    · rw [if_neg hlt, if_neg hlt]

theorem findAtStartAux_congr {raw raw' : Str} (h : lowerStr raw = lowerStr raw') :
    ∀ (cmds : List Cmd) (best : Option (Cmd × Nat)),
      findAtStartAux raw cmds best = findAtStartAux raw' cmds best := by
  intro cmds
  induction cmds with
  | nil => intro best; rfl
  | cons c rest ih =>
    intro best
    rw [findAtStartAux, findAtStartAux, nameMatchAtStart_congr c.name h]
    rcases nameMatchAtStart c.name raw' with _ | len <;> dsimp only
    · exact ih best
    · by_cases h0 : len ≠ 0
      · rw [if_pos h0, if_pos h0]
        rcases best with _ | b <;> dsimp only
        · exact ih _
        · by_cases hgt : len > b.2
          · rw [if_pos hgt, if_pos hgt]; exact ih _
          · rw [if_neg hgt, if_neg hgt]; exact ih _
      · rw [if_neg h0, if_neg h0]
        exact ih best

/-- C1: on the non-help path, `findCommandAtStart` resolves the line to
a registered command whose escaped canonical name matches the start of
the line case-insensitively, ending at a token boundary (whitespace or
end of string); the matched length is the name's length, and among all
boundary-matching registered names the resolved one has the greatest
length.  Resolution is invariant under letter case, and a name never
matches when the character right after it is non-whitespace. -/
theorem C1_start_matching :
    (∀ (cmds : List Cmd) (raw : Str) (c : Cmd) (len : Nat),
      findCommandAtStart cmds raw = some (c, len) →
        c ∈ cmds ∧ nameMatchAtStart c.name raw = some len ∧ len = c.name.length ∧
        ∀ c' ∈ cmds, ∀ l, nameMatchAtStart c'.name raw = some l → l ≠ 0 → l ≤ len) ∧
    (∀ (cmds : List Cmd) (raw : Str),
      (∃ c ∈ cmds, ∃ l, nameMatchAtStart c.name raw = some l ∧ l ≠ 0) →
        (findCommandAtStart cmds raw).isSome = true) ∧
    (∀ (cmds : List Cmd) (raw raw' : Str), lowerStr raw = lowerStr raw' →
        findCommandAtStart cmds raw = findCommandAtStart cmds raw') ∧
    (∀ (name rest : Str) (ch : Char), isWs ch = false →
        nameMatchAtStart name (name ++ ch :: rest) = none) := by
  refine ⟨?_, ?_, ?_, ?_⟩
  · intro cmds raw c len h
    have hs := findAtStartAux_sound raw cmds none (c, len) h
    rcases hs with ⟨h1, h2, h3⟩ | h1
    · refine ⟨h1, h2, ?_, ?_⟩
      · exact ((nameMatchAtStart_iff c.name raw len).mp h2).1
      · intro c' hc' l hl hl0
        exact findAtStartAux_max raw cmds none (c, len) h c' hc' l hl hl0
    · cases h1
  · intro cmds raw ⟨c, hc, l, hl, h0⟩
    exact findAtStartAux_exists raw cmds c hc l hl h0
  · intro cmds raw raw' h
    exact findAtStartAux_congr h cmds none
  · intro name rest ch hch
    rcases hcase : nameMatchAtStart name (name ++ ch :: rest) with _ | l
    · rfl
    · exfalso
      have hc := (nameMatchAtStart_iff name (name ++ ch :: rest) l).mp hcase
      have hlen : (name ++ ch :: rest).length = name.length + (rest.length + 1) := by
        simp
      rcases hc.2.2.2 with hle | hw
      · omega
      · have hget : (name ++ ch :: rest).getD name.length ' ' = ch := by
          rw [List.getD_append_right name (ch :: rest) ' ' name.length (Nat.le_refl _)]
          simp
        rw [hget, hch] at hw
        cases hw

/-- `Router.suggestClosest`: Levenshtein suggestion over normalized
names (stable sort by score, threshold 3), then the multi-word
first-word heuristic, then a generic hint.  `Array.prototype.sort` is
stable and a stable sort's output is uniquely determined, so the
embedding uses (stable) insertion sort for it. -/
def suggestClosest (cmds : List Cmd) (input : Str) : List Event :=
  let needle := normalizeName input
  let scores := cmds.map (fun c => (c, levenshtein needle (normalizeName c.name)))
  let sorted := scores.insertionSort (fun p q => p.2 ≤ q.2)
  let second : List Event :=
    if 3 ≤ needle.length then
      match cmds.find? (fun c => (normalizeName c.name).take (needle.length + 1)
          == needle ++ [' ']) with
      | some c => [Event.log (str "Did you mean: " ++ c.name ++ str " ?")]
      | none => [Event.log (str "Type \x22help\x22 to see available commands.")]
    else [Event.log (str "Type \x22help\x22 to see available commands.")]
  match sorted.head? with
  | some best =>
    if best.2 ≤ 3 then [Event.log (str "Did you mean: " ++ best.1.name ++ str " ?")]
    else second
  | none => second

/-- `Router.command`: route one line of input. -/
def routerCommand (cmds : List Cmd) (execF : Str → List Str → Except Str Unit)
    (input : Str) : List Event :=
  let raw := trimJS input
  if raw = [] then []
  else
    let tokens := splitWs raw
    let first := tokens.headD []
    let rest := tokens.tail
    if isHelpToken first then
      if rest = [] then [Event.globalHelp]
      else
        let targetRaw := trimJS (List.intercalate (str " ") rest)
        match findCommandByExactName cmds targetRaw with
        | some c => [Event.helpInvoked c.name]
        | none =>
          Event.log (str "Unknown command for help: " ++ targetRaw) ::
            (let needle := rest.headD targetRaw
             if needle = [] then [] else suggestClosest cmds needle)
    else
      match findCommandAtStart cmds raw with
      | none => Event.log (str "Unknown command: " ++ first) :: suggestClosest cmds first
      | some m =>
        let argStr := trimJS (raw.drop m.2)
        let args := if argStr = [] then [] else splitWs argStr
        if args.any isHelpToken then [Event.helpInvoked m.1.name]
        else
          Event.execInvoked m.1.name args ::
            (match execF m.1.name args with
             | Except.ok _ => []
             | Except.error e => [Event.errLog (str "Command failed: " ++ e)])

/-! ### The registries (`commands/system/_index.ts`,
`commands/database/_index.ts`) -/

/-- `.exit` (`commands/system/exit.ts`). -/
def exitCmd : Cmd :=
  { name := str ".exit", description := str "Exit the current REPL session" }

/-- `ATTACH DATABASE` (`commands/database/attach.ts`). -/
def attachCmd : Cmd :=
  { name := str "ATTACH DATABASE",
    description := str "Attach to a database for the current session using the provided path" }

/-- System registry: `SystemCommandRegistry` registers exactly the exit
command. -/
def systemCommands : List Cmd := [exitCmd]

/-- Database registry: `DatabaseCommandRegistry`
(`commands/database/_index.ts`) registers exactly the attach command
(`public attach = new AttachCommand()`). -/
def databaseCommands : List Cmd := [attachCmd]

/-- The router's discovered command list: system then database. -/
def commands : List Cmd := systemCommands ++ databaseCommands

theorem C1_start_matching_witness :
    (findCommandAtStart commands (str "attach database x")).isSome = true :=
  C1_start_matching.2.1 commands (str "attach database x")
    ⟨attachCmd, by decide, 15, by decide, by decide⟩

/-- C5: when the resolved command's `execute` raises, `Router.command`
catches the error, reports it on the error channel as
`Command failed: <details>`, and returns normally with exactly those
events — the error never escapes the router. -/
theorem C5_command_failure_caught (cmds : List Cmd)
    (execF : Str → List Str → Except Str Unit) (input : Str) (c : Cmd) (len : Nat)
    (args : List Str) (e : Str)
    (hraw : trimJS input ≠ [])
    (hhelp : isHelpToken ((splitWs (trimJS input)).headD []) = false)
    (hfind : findCommandAtStart cmds (trimJS input) = some (c, len))
    (hargs : args = (if trimJS ((trimJS input).drop len) = [] then []
        else splitWs (trimJS ((trimJS input).drop len))))
    (hanyhelp : args.any isHelpToken = false)
    (hexec : execF c.name args = Except.error e) :
    routerCommand cmds execF input =
      [Event.execInvoked c.name args, Event.errLog (str "Command failed: " ++ e)] := by
  have h1 : (trimJS input = []) = False := by simp [hraw]
  simp only [routerCommand, h1, if_false, hhelp, Bool.false_eq_true, hfind]
  rw [← hargs]
  simp only [hanyhelp, Bool.false_eq_true, if_false, hexec]

theorem C5_command_failure_caught_witness :
    routerCommand commands (fun _ _ => Except.error (str "boom")) (str "ATTACH DATABASE x") =
      [Event.execInvoked attachCmd.name [str "x"],
       Event.errLog (str "Command failed: " ++ str "boom")] :=
  C5_command_failure_caught commands (fun _ _ => Except.error (str "boom"))
    (str "ATTACH DATABASE x") attachCmd 15 [str "x"] (str "boom")
    (by decide) (by decide) (by decide) (by decide) (by decide) rfl

/-- C8: the dotless single-word form of a marker-prefixed canonical name
(here `exit` for `.exit`) never matches the start-of-line boundary rule
and always takes the unknown-command path: the router prints
`Unknown command: <token>` and then suggests the canonical
marker-prefixed name, whose normalized edit distance from the input
is 0. -/
theorem C8_marker_required :
    ∀ c ∈ commands, c.name.headD ' ' = '.' →
    ∀ execF : Str → List Str → Except Str Unit,
      nameMatchAtStart c.name (c.name.drop 1) = none ∧
      findCommandAtStart commands (c.name.drop 1) = none ∧
      levenshtein (normalizeName (c.name.drop 1)) (normalizeName c.name) = 0 ∧
      routerCommand commands execF (c.name.drop 1) =
        [Event.log (str "Unknown command: " ++ c.name.drop 1),
         Event.log (str "Did you mean: " ++ c.name ++ str " ?")] := by
  intro c hc hdot execF
  rcases List.mem_cons.mp hc with rfl | hc2
  · exact ⟨by decide, by decide, by decide, rfl⟩
  · rcases List.mem_cons.mp hc2 with rfl | hc3
    · exact absurd hdot (by decide)
    · cases hc3

theorem splitWsAux_ne_nil : ∀ (s acc : Str), ∀ t ∈ splitWsAux s acc, t ≠ [] := by
  intro s
  induction s with
  | nil =>
    intro acc t ht
    rw [splitWsAux] at ht
    by_cases hacc : acc = []
    · rw [if_pos hacc] at ht
      cases ht
    · rw [if_neg hacc] at ht
      rcases List.mem_singleton.mp ht with rfl
      simpa using hacc
  | cons c rest ih =>
    intro acc t ht
    rw [splitWsAux] at ht
    by_cases hws : isWs c = true
    · rw [if_pos hws] at ht
      by_cases hacc : acc = []
      · rw [if_pos hacc] at ht
        exact ih [] t ht
      · rw [if_neg hacc] at ht
        rcases List.mem_cons.mp ht with rfl | ht2
        · simpa using hacc
        · exact ih [] t ht2
    · rw [if_neg hws] at ht
      exact ih (c :: acc) t ht

theorem splitWs_ne_nil (s : Str) : ∀ t ∈ splitWs s, t ≠ [] :=
  splitWsAux_ne_nil s []

/-- C3 counterexample: for the input `help exit`, the target's string
equals the normalized (marker-stripped, lowercased) name of `.exit`,
yet the router does not invoke that command's help — it reports an
unknown command for help and suggests `.exit`.  Exact-name lookup for
help compares the full canonical name (dot included), not the
normalized name. -/
theorem C3_counterexample :
    normalizeName exitCmd.name = str "exit" ∧
    trimJS (List.intercalate (str " ") ((splitWs (trimJS (str "help exit"))).tail)) =
      str "exit" ∧
    routerCommand commands (fun _ _ => Except.ok ()) (str "help exit") =
      [Event.log (str "Unknown command for help: exit"),
       Event.log (str "Did you mean: .exit ?")] ∧
    Event.helpInvoked exitCmd.name ∉
      routerCommand commands (fun _ _ => Except.ok ()) (str "help exit") := by
  refine ⟨by decide, by decide, by decide, by decide⟩

/-- C3 (amended): on the help path with a non-empty target, the router
invokes a command's help iff some registered command's full canonical
name — marker included, compared case-insensitively through the escaped
exact-match pattern — equals the trimmed target; the first such command
in registry order is used, with no prefix matching and no marker
stripping.  Otherwise it prints the unknown-command-for-help message and
runs the suggestion engine seeded with the first word of the target. -/
theorem find?_some_decomp {α : Type} (p : α → Bool) :
    ∀ (l : List α) (a : α), l.find? p = some a →
      ∃ pre post, l = pre ++ a :: post ∧ ∀ x ∈ pre, p x = false := by
  intro l
  induction l with
  | nil => intro a h; cases h
  | cons x xs ih =>
    intro a h
    by_cases hx : p x = true
    · rw [List.find?_cons_of_pos _ hx] at h
      injection h with h
      exact ⟨[], xs, by rw [h]; rfl, by intro y hy; cases hy⟩
    · rw [List.find?_cons_of_neg _ hx] at h
      obtain ⟨pre, post, hl, hpre⟩ := ih a h
      refine ⟨x :: pre, post, by rw [hl]; rfl, ?_⟩
      intro y hy
      rcases List.mem_cons.mp hy with rfl | hy2
      · exact Bool.not_eq_true _ ▸ eq_false_of_ne_true hx
      · exact hpre y hy2

theorem C3_amended_help_exact (cmds : List Cmd)
    (execF : Str → List Str → Except Str Unit) (input : Str)
    (hraw : trimJS input ≠ [])
    (hhelp : isHelpToken ((splitWs (trimJS input)).headD []) = true)
    (hrest : (splitWs (trimJS input)).tail ≠ []) :
    (∀ (token : Str) (c : Cmd), findCommandByExactName cmds token = some c →
        c ∈ cmds ∧ lowerStr c.name = lowerStr (trimJS token) ∧
        ∃ pre post, cmds = pre ++ c :: post ∧
          ∀ c' ∈ pre, lowerStr c'.name ≠ lowerStr (trimJS token)) ∧
    (∀ token : Str, (∃ c ∈ cmds, lowerStr c.name = lowerStr (trimJS token)) →
        (findCommandByExactName cmds token).isSome = true) ∧
    (∀ c : Cmd, findCommandByExactName cmds
          (trimJS (List.intercalate (str " ") ((splitWs (trimJS input)).tail))) = some c →
        routerCommand cmds execF input = [Event.helpInvoked c.name]) ∧
    (findCommandByExactName cmds
          (trimJS (List.intercalate (str " ") ((splitWs (trimJS input)).tail))) = none →
        routerCommand cmds execF input =
          Event.log (str "Unknown command for help: " ++
              trimJS (List.intercalate (str " ") ((splitWs (trimJS input)).tail))) ::
            suggestClosest cmds ((splitWs (trimJS input)).tail.headD [])) := by
  have h1 : (trimJS input = []) = False := by simp [hraw]
  have h2 : ((splitWs (trimJS input)).tail = []) = False := by simp [hrest]
  have hneedle : (splitWs (trimJS input)).tail.headD
      (trimJS (List.intercalate (str " ") ((splitWs (trimJS input)).tail))) =
      (splitWs (trimJS input)).tail.headD [] := by
    rcases hq : (splitWs (trimJS input)).tail with _ | ⟨t, ts⟩
    · exact absurd hq hrest
    · rfl
  have hne : (splitWs (trimJS input)).tail.headD [] ≠ [] := by
    rcases hq : (splitWs (trimJS input)).tail with _ | ⟨t, ts⟩
    · exact absurd hq hrest
    · show t ≠ []
      apply splitWs_ne_nil (trimJS input)
      have : t ∈ (splitWs (trimJS input)).tail := by rw [hq]; exact List.mem_cons_self _ _
      exact List.mem_of_mem_tail this
  refine ⟨?_, ?_, ?_, ?_⟩
  · intro token c hfind
    refine ⟨List.mem_of_find?_eq_some hfind, ?_, ?_⟩
    · have := List.find?_some hfind
      exact (reFullMatch_iff c.name (trimJS token)).mp this
    · obtain ⟨pre, post, hl, hpre⟩ := find?_some_decomp _ cmds c hfind
      refine ⟨pre, post, hl, ?_⟩
      intro c' hc' heq
      have := (reFullMatch_iff c'.name (trimJS token)).mpr heq
      rw [hpre c' hc'] at this
      cases this
  · intro token ⟨c, hc, hlow⟩
    rw [findCommandByExactName, List.find?_isSome]
    exact ⟨c, hc, (reFullMatch_iff c.name (trimJS token)).mpr hlow⟩
  · intro c hfound
    simp only [routerCommand, h1, if_false, hhelp, if_true, h2, hfound]
  · intro hfound
    simp only [routerCommand, h1, if_false, hhelp, if_true, h2, hfound]
    rw [hneedle]
    simp only [hne, if_neg, if_false]

theorem C3_amended_help_exact_witness :
    routerCommand commands (fun _ _ => Except.ok ()) (str "help .EXIT") =
      [Event.helpInvoked exitCmd.name] :=
  (C3_amended_help_exact commands (fun _ _ => Except.ok ()) (str "help .EXIT")
    (by decide) (by decide) (by decide)).2.2.1 exitCmd (by decide)

theorem C8_marker_required_witness :
    nameMatchAtStart exitCmd.name (exitCmd.name.drop 1) = none ∧
    findCommandAtStart commands (exitCmd.name.drop 1) = none ∧
    levenshtein (normalizeName (exitCmd.name.drop 1)) (normalizeName exitCmd.name) = 0 ∧
    routerCommand commands (fun _ _ => Except.ok ()) (exitCmd.name.drop 1) =
      [Event.log (str "Unknown command: " ++ exitCmd.name.drop 1),
       Event.log (str "Did you mean: " ++ exitCmd.name ++ str " ?")] :=
  C8_marker_required exitCmd (by decide) (by decide) (fun _ _ => Except.ok ())

theorem lowerChar_eq_dot {c : Char} (h : lowerChar c = '.') : c = '.' := by
  have hn : (lowerChar c).toNat = 46 := by rw [h]; rfl
  rw [lowerChar_toNat] at hn
  split at hn
  · omega
  · exact char_eq_of_toNat_eq (by rw [hn]; rfl)

/-- C10: command names are regex-escaped before being compiled, so every
character of a canonical name — the leading dot of `.exit` included —
matches only literally.  Any input matching `.exit` at the start begins
with a literal dot, and inputs such as `xexit` or `Xexit arg` are never
resolved to `.exit` by start-of-line matching or exact-name lookup. -/
theorem C10_regex_escaping :
    (∀ s : Str, parseAtoms (escapeRegex s) = s.map Atom.lit) ∧
    (∀ (input : Str) (len : Nat), nameMatchAtStart (str ".exit") input = some len →
        input.headD ' ' = '.') ∧
    findCommandAtStart commands (str "xexit") = none ∧
    findCommandAtStart commands (str "Xexit arg") = none ∧
    findCommandByExactName commands (str "xexit") = none ∧
    findCommandByExactName commands (str "Xexit arg") = none := by
  refine ⟨parseAtoms_escapeRegex, ?_, by decide, by decide, by decide, by decide⟩
  intro input len h
  have hc := (nameMatchAtStart_iff (str ".exit") input len).mp h
  have hlen : 5 ≤ input.length := hc.2.1
  cases input with
  | nil => simp at hlen
  | cons c rest =>
    have htake := hc.2.2.1
    have hhead : lowerChar c = lowerChar '.' := by
      have : (str ".exit").length = 5 := rfl
      rw [this] at htake
      simp only [List.take, lowerStr, List.map] at htake
      exact ((List.cons.injEq _ _ _ _).mp htake).1
    show c = '.'
    exact lowerChar_eq_dot (by rw [hhead]; rfl)

theorem C10_regex_escaping_witness :
    (str ".exit please").headD ' ' = '.' :=
  C10_regex_escaping.2.1 (str ".exit please") 5 (by decide)

/-- Head of a stable sort by score: the first element of minimal score.
Stated through the decomposition `u ++ b :: v` where everything before
`b` scores strictly higher and everything after scores no lower. -/
theorem head_insertionSort_firstMin :
    ∀ (u : List (Cmd × Nat)) (b : Cmd × Nat) (v : List (Cmd × Nat)),
      (∀ x ∈ u, b.2 < x.2) → (∀ x ∈ v, b.2 ≤ x.2) →
      ((u ++ b :: v).insertionSort (fun p q => p.2 ≤ q.2)).head? = some b := by
  intro u
  induction u with
  | nil =>
    intro b v hu hv
    show (List.orderedInsert _ b (v.insertionSort (fun p q => p.2 ≤ q.2))).head? = some b
    rcases hs : v.insertionSort (fun p q => p.2 ≤ q.2) with _ | ⟨c, rest⟩
    · rw [hs]
      rfl
    · have hcv : c ∈ v := by
        have hmem : c ∈ v.insertionSort (fun p q => p.2 ≤ q.2) := by
          rw [hs]; exact List.mem_cons_self _ _
        exact (List.perm_insertionSort _ v).mem_iff.mp hmem
      rw [hs, List.orderedInsert_of_le _ rest (hv c hcv)]
      rfl
  | cons a u2 ih =>
    intro b v hu hv
    have hb : b.2 < a.2 := hu a (List.mem_cons_self _ _)
    have ihb := ih b v (fun x hx => hu x (List.mem_cons_of_mem _ hx)) hv
    show (List.orderedInsert _ a ((u2 ++ b :: v).insertionSort (fun p q => p.2 ≤ q.2))).head?
      = some b
    rcases hs : (u2 ++ b :: v).insertionSort (fun p q => p.2 ≤ q.2) with _ | ⟨c, rest⟩
    · rw [hs] at ihb
      cases ihb
    · rw [hs] at ihb
      injection ihb with hc
      rw [hs, hc]
      dsimp only [List.orderedInsert]
      rw [if_neg (show ¬ a.2 ≤ b.2 by omega)]
      rfl

/-- C2: the suggestion engine prints exactly one line.  Writing the
score list as `u ++ best :: v` with strictly greater scores before
`best` and no smaller scores after it (the stable-sort selection:
minimum score, first in registry order on ties): if `best`\'s score is at
most 3 the engine prints `Did you mean: <canonical name> ?` for it and
stops; otherwise, when the normalized input has length at least 3 and a
registered command\'s normalized name starts with the input plus a
space, it prints the same line for the first such command; otherwise it
prints the generic hint. -/
theorem C2_suggestion_engine (cmds : List Cmd) (input : Str) :
    (suggestClosest cmds input).length = 1 ∧
    (∀ (best : Cmd × Nat) (u v : List (Cmd × Nat)),
      cmds.map (fun c => (c, levenshtein (normalizeName input) (normalizeName c.name)))
        = u ++ best :: v →
      (∀ x ∈ u, best.2 < x.2) → (∀ x ∈ v, best.2 ≤ x.2) →
      (best.2 ≤ 3 →
        suggestClosest cmds input =
          [Event.log (str "Did you mean: " ++ best.1.name ++ str " ?")]) ∧
      (3 < best.2 → 3 ≤ (normalizeName input).length →
        ∀ c : Cmd, cmds.find? (fun c => (normalizeName c.name).take
              ((normalizeName input).length + 1) == normalizeName input ++ [' ']) = some c →
          c ∈ cmds ∧
          (normalizeName c.name).take ((normalizeName input).length + 1) =
            normalizeName input ++ [' '] ∧
          suggestClosest cmds input =
            [Event.log (str "Did you mean: " ++ c.name ++ str " ?")]) ∧
      (3 < best.2 →
        ((normalizeName input).length < 3 ∨
          cmds.find? (fun c => (normalizeName c.name).take
              ((normalizeName input).length + 1) == normalizeName input ++ [' ']) = none) →
        suggestClosest cmds input =
          [Event.log (str "Type \x22help\x22 to see available commands.")])) := by
  constructor
  · unfold suggestClosest
    dsimp only
    repeat first | rfl | split
  · intro best u v hdecomp hu hv
    have hhead := head_insertionSort_firstMin u best v hu hv
    rw [← hdecomp] at hhead
    refine ⟨?_, ?_, ?_⟩
    · intro hle
      unfold suggestClosest
      dsimp only
      rw [hhead]
      dsimp only
      rw [if_pos hle]
    · intro hgt hlen c hfind
      refine ⟨List.mem_of_find?_eq_some hfind, ?_, ?_⟩
      · have hp := List.find?_some hfind
        exact eq_of_beq hp
      · unfold suggestClosest
        dsimp only
        rw [hhead]
        dsimp only
        rw [if_neg (by omega), if_pos hlen, hfind]
    · intro hgt hor
      unfold suggestClosest
      dsimp only
      rw [hhead]
      dsimp only
      rw [if_neg (by omega)]
      rcases hor with hlen | hnone
      · rw [if_neg (by omega)]
      · by_cases hlen : 3 ≤ (normalizeName input).length
        · rw [if_pos hlen, hnone]
        · rw [if_neg hlen]

theorem C2_suggestion_engine_witness :
    suggestClosest commands (str "exit") =
      [Event.log (str "Did you mean: " ++ exitCmd.name ++ str " ?")] :=
  ((C2_suggestion_engine commands (str "exit")).2 (exitCmd, 0) []
    [(attachCmd, 14)] (by decide) (by decide) (by decide)).1 (by decide)

/-! ### The attach command (`commands/database/attach.ts`)

`AttachCommand.execute` reads and writes the filesystem and the session.
The filesystem is a map from paths to file contents; `path.resolve` is
an external collaborator and is passed in as `resolveF`.  `mkdirSync`
only affects directories and has no observable effect in this model. -/

/-- The REPL session state touched by the attach command. -/
structure SessionSt where
  dbPath : Option Str := none
  dbName : Option Str := none
deriving DecidableEq

/-- `path.basename`: the part after the last `/`. -/
def baseName (p : Str) : Str := (p.reverse.takeWhile (fun c => c ≠ '/')).reverse

/-- `base.replace(/\.[^.]+$/, "")`: strip one final extension. -/
def stripExt (s : Str) : Str :=
  let r := s.reverse
  let e := r.takeWhile (fun c => c ≠ '.')
  if e.length < r.length ∧ e ≠ [] then (r.drop (e.length + 1)).reverse else s

/-- `AttachCommand.execute` from `commands/database/attach.ts`. -/
def attachExecute (resolveF : Str → Str) (fs : Str → Option (List Nat))
    (sess : SessionSt) (args : List Str) :
    SessionSt × (Str → Option (List Nat)) × List Event :=
  let url := args.headD []
  if url = [] ∨ url.take 2 = str "--" ∨ url = str "-h" ∨ url = str "?" then
    (sess, fs, [Event.log (str "Usage: ATTACH DATABASE <path|url>"),
                Event.log (str "Example: ATTACH DATABASE ./db.db")])
  else
    let abs := resolveF url
    match fs abs with
    | none =>
      ({ dbPath := some abs, dbName := some (stripExt (baseName abs)) },
       fun p => if p = abs then some (createHeader DEFAULT_PAGE_SIZE) else fs p,
       [Event.log (str "Attached database: " ++ url)])
    | some contents =>
      let bytesRead := min HEADER_SIZE contents.length
      let buf := contents.take HEADER_SIZE ++ List.replicate (HEADER_SIZE - bytesRead) 0
      if bytesRead < MIN_HEADER_VALID_BYTES then
        (sess, fs, [Event.errLog (str "Invalid database header: file too small")])
      else if isValidHeader buf = false then
        (sess, fs,
         [Event.errLog (str "Invalid database header: magic string mismatch or bad page size")])
      else
        ({ dbPath := some abs, dbName := some (stripExt (baseName abs)) }, fs,
         [Event.log (str "Attached database: " ++ url)])

/-- C9: attaching a path that names an existing file whose header fails
validation (fewer than 18 readable bytes, or magic/page-size check
failure on the zero-padded read buffer) reports exactly one
error-channel message, prints nothing on the normal channel — in
particular no `Attached database:` success line — and leaves the
session untouched. -/
theorem C9_attach_invalid_header (resolveF : Str → Str) (fs : Str → Option (List Nat))
    (sess : SessionSt) (args : List Str) (url : Str) (contents : List Nat)
    (hurl : args.headD [] = url)
    (hflag : ¬(url = [] ∨ url.take 2 = str "--" ∨ url = str "-h" ∨ url = str "?"))
    (hexist : fs (resolveF url) = some contents)
    (hbad : min HEADER_SIZE contents.length < MIN_HEADER_VALID_BYTES ∨
      isValidHeader (contents.take HEADER_SIZE ++
        List.replicate (HEADER_SIZE - min HEADER_SIZE contents.length) 0) = false) :
    (attachExecute resolveF fs sess args).1 = sess ∧
    (∃ m, (attachExecute resolveF fs sess args).2.2 = [Event.errLog m]) ∧
    (∀ s, Event.log s ∉ (attachExecute resolveF fs sess args).2.2) := by
  have hmain : attachExecute resolveF fs sess args =
      (sess, fs, [Event.errLog (str "Invalid database header: file too small")]) ∨
      attachExecute resolveF fs sess args = (sess, fs,
        [Event.errLog (str "Invalid database header: magic string mismatch or bad page size")]) := by
    unfold attachExecute
    rw [hurl, if_neg hflag]
    dsimp only
    rw [hexist]
    dsimp only
    by_cases hsmall : min HEADER_SIZE contents.length < MIN_HEADER_VALID_BYTES
    · rw [if_pos hsmall]
      exact Or.inl rfl
    · rw [if_neg hsmall]
      have hbad2 : isValidHeader (contents.take HEADER_SIZE ++
          List.replicate (HEADER_SIZE - min HEADER_SIZE contents.length) 0) = false := by
        rcases hbad with h | h
        · exact absurd h hsmall
        · exact h
      rw [if_pos hbad2]
      exact Or.inr rfl
  rcases hmain with h | h <;> rw [h]
  · exact ⟨rfl, ⟨_, rfl⟩, by intro s hs; simp at hs⟩
  · exact ⟨rfl, ⟨_, rfl⟩, by intro s hs; simp at hs⟩

theorem C9_attach_invalid_header_witness :
    (attachExecute id (fun p => if p = str "bad.db" then some [7, 7, 7, 7, 7] else none)
        { dbPath := none, dbName := none } [str "bad.db"]).1 =
      { dbPath := none, dbName := none } ∧
    (∃ m, (attachExecute id (fun p => if p = str "bad.db" then some [7, 7, 7, 7, 7] else none)
        { dbPath := none, dbName := none } [str "bad.db"]).2.2 = [Event.errLog m]) :=
  let t := C9_attach_invalid_header id
    (fun p => if p = str "bad.db" then some [7, 7, 7, 7, 7] else none)
    { dbPath := none, dbName := none } [str "bad.db"] (str "bad.db") [7, 7, 7, 7, 7]
    (by decide) (by decide) (by decide) (by decide)
  ⟨t.1, t.2.1⟩

end LiteCore
